import Mathlib

/-!
Verification development for the ExEx write-ahead log (WAL) of
crates/exex/exex/src/wal. The `Wal` orchestration (commit / finalize /
remove / entries / recovery) is translated from crates/exex/exex/src/wal/mod.rs.
The collaborator components `Storage` (wal/storage.rs) and `BlockCache`
(wal/cache.rs) are not part of the excerpted sources; they are modelled from
the specification's component contracts (spec sections 4.1 and 4.2), and their
behaviour is cross-checked against the expectations of the test in mod.rs.

Machine integers: file ids are u64 in the source; they are modelled as Nat.
The only place where the u64 width is observable is the `u64::MAX` sentinel
in finalize, modelled by the dedicated `Boundary.top` value (see below).
Block hashes (B256) are modelled as Nat; the WAL only ever compares them for
equality.
-/

/-- A block number plus hash pair, as in reth_primitives::BlockNumHash.
The hash (B256 in the source) is modelled as a Nat, compared only for
equality by the WAL. -/
structure BlockNumHash where
  number : Nat
  hash : Nat
deriving DecidableEq, Repr

/-- Modelled from the spec: the action recorded for one cached block row
(wal/cache.rs is not among the excerpted sources; spec section 3,
CachedBlock). -/
inductive CachedBlockAction where
  | Commit
  | Revert
deriving DecidableEq, Repr

/-- Translation of CachedBlockAction::is_commit (confirmed by its use in
Wal::finalize in mod.rs). -/
def CachedBlockAction.is_commit : CachedBlockAction → Bool
  | .Commit => true
  | .Revert => false

/-- Modelled from the spec: one block cache row, spec section 3
(wal/cache.rs is not among the excerpted sources). -/
structure CachedBlock where
  action : CachedBlockAction
  block : BlockNumHash
deriving DecidableEq, Repr

/-- The notification payload, as in reth_exex_types::ExExNotification. A chain
is its ordered block sequence; per the spec (section 3 and 6) a chain is
non-empty, captured by the separate well-formedness predicate
ExExNotification.wf. Only block number and hash are visible to the WAL. -/
inductive ExExNotification where
  | ChainCommitted (new : List BlockNumHash)
  | ChainReverted (old : List BlockNumHash)
  | ChainReorged (old new : List BlockNumHash)
deriving DecidableEq, Repr

/-- Translation of ExExNotification::committed_chain: the newly committed
chain of a Committed or Reorged notification. -/
def ExExNotification.committed_chain : ExExNotification → Option (List BlockNumHash)
  | .ChainCommitted new => some new
  | .ChainReverted _ => none
  | .ChainReorged _ new => some new

/-- Translation of ExExNotification::reverted_chain: the reverted chain of a
Reverted or Reorged notification. -/
def ExExNotification.reverted_chain : ExExNotification → Option (List BlockNumHash)
  | .ChainCommitted _ => none
  | .ChainReverted old => some old
  | .ChainReorged old _ => some old

/-- Spec section 3 and 6: every chain carried by a notification is a
non-empty block sequence. -/
def ExExNotification.wf : ExExNotification → Bool
  | .ChainCommitted new => !new.isEmpty
  | .ChainReverted old => !old.isEmpty
  | .ChainReorged old new => !old.isEmpty && !new.isEmpty

/-- Translation of NotificationCommitTarget from wal/entry.rs. -/
inductive NotificationCommitTarget where
  | Commit
  | Canonicalize
deriving DecidableEq, Repr

/-- Translation of WalEntry from wal/entry.rs. -/
structure WalEntry where
  target : NotificationCommitTarget
  notification : ExExNotification
deriving DecidableEq, Repr

/-- Modelled from the spec: the durable Storage component (wal/storage.rs is
not among the excerpted sources). Spec section 4.1: a durable append log
keyed by a monotonically increasing ordinal (file id). Modelled as the
association list of live (file id, entry) pairs in file-id order; the
entries it holds are the already-decoded values (byte-level decode errors
are outside the pure model). -/
abbrev Storage := List (Nat × WalEntry)

/-- Modelled from the spec: Storage::write_entry appends or overwrites the
entry at the given file id (spec section 4.1). The file-id ordering of the
log is maintained. -/
def Storage.write_entry : Storage → Nat → WalEntry → Storage
  | [], file_id, e => [(file_id, e)]
  | (k, v) :: rest, file_id, e =>
    if file_id < k then (file_id, e) :: (k, v) :: rest
    else if file_id = k then (file_id, e) :: rest
    else (k, v) :: Storage.write_entry rest file_id e

/-- Modelled from the spec: Storage::read_entry returns the decoded entry at
the given file id, or an error (none) if absent (spec section 4.1; mod.rs
refers to this operation as read_entrry). -/
def Storage.read_entry (s : Storage) (file_id : Nat) : Option WalEntry :=
  (s.find? (fun kv => kv.1 == file_id)).map (·.2)

/-- Modelled from the spec: Storage::remove_entry deletes exactly one entry;
removal of an absent file id is surfaced as an error (none), spec
sections 4.1 and 7. -/
def Storage.remove_entry (s : Storage) (file_id : Nat) : Option Storage :=
  if (Storage.read_entry s file_id).isSome then
    some (s.filter (fun kv => kv.1 != file_id))
  else none

/-- Modelled from the spec: Storage::remove_entries deletes the contiguous
inclusive range of file ids in one logical, all-or-nothing operation (spec
section 4.1). The removed count returned by the source is not modelled. -/
def Storage.remove_entries (s : Storage) (a b : Nat) : Storage :=
  s.filter (fun kv => !(decide (a ≤ kv.1) && decide (kv.1 ≤ b)))

/-- Modelled from the spec: Storage::files_range returns the (min, max) pair
over currently live file ids, or none if the log is empty (spec
section 4.1). -/
def Storage.files_range (s : Storage) : Option (Nat × Nat) :=
  match s.head?, s.getLast? with
  | some lo, some hi => some (lo.1, hi.1)
  | _, _ => none

/-- Modelled from the spec: Storage::entries over a range produces the
(file id, entry) sequence restricted to that inclusive range, in file-id
order (spec section 4.1). -/
def Storage.entriesIn (s : Storage) (a b : Nat) : List (Nat × WalEntry) :=
  s.filter (fun kv => decide (a ≤ kv.1) && decide (kv.1 ≤ b))

/-- Modelled from the spec: the BlockCache component (wal/cache.rs is not
among the excerpted sources). Spec section 4.2: an ordered in-memory
sequence of (file id, CachedBlock) rows, oldest first. -/
abbrev BlockCache := List (Nat × CachedBlock)

/-- Modelled from the spec: the cache-row expansion of one notification at a
file id. Spec sections 3 (CachedBlock, invariant I1) and 4.3 step 2:
reverted-chain rows first, tagged Revert, then committed-chain rows, tagged
Commit, all sharing the entry's file id. The expansion is confirmed row for
row by the expectations of the test in mod.rs. -/
def cacheRows (file_id : Nat) (n : ExExNotification) : List (Nat × CachedBlock) :=
  ((n.reverted_chain.getD []).map (fun b => (file_id, CachedBlock.mk .Revert b))) ++
  ((n.committed_chain.getD []).map (fun b => (file_id, CachedBlock.mk .Commit b)))

/-- Modelled from the spec: BlockCache::insert_notification_blocks_with_file_id
appends the expansion of the notification to the cache (spec section 4.2). -/
def BlockCache.insert_notification_blocks_with_file_id
    (c : BlockCache) (file_id : Nat) (n : ExExNotification) : BlockCache :=
  c ++ cacheRows file_id n

/-- Modelled from the spec: BlockCache::remove_notification removes all rows
tagged with the given file id (spec section 4.2). -/
def BlockCache.remove_notification (c : BlockCache) (file_id : Nat) : BlockCache :=
  c.filter (fun r => r.1 != file_id)

/-- Modelled from the spec: BlockCache::back peeks the newest row (spec
section 4.2). -/
def BlockCache.back (c : BlockCache) : Option (Nat × CachedBlock) :=
  c.getLast?

/-- Modelled from the spec: BlockCache::front peeks the oldest row (spec
section 4.2). -/
def BlockCache.front (c : BlockCache) : Option (Nat × CachedBlock) :=
  c.head?

/-- Translation of the Wal struct from mod.rs: one Storage plus one
BlockCache. -/
structure Wal where
  storage : Storage
  block_cache : BlockCache
deriving DecidableEq, Repr

/-- The WAL with empty storage and empty cache (the state Wal::new produces
on a fresh directory). -/
def walEmpty : Wal := ⟨[], []⟩

/-- Outcome of one Wal operation. The source methods take &mut self and
return eyre::Result; `ok w` and `err w` carry the state the receiver was
left in (mutations made before an early error return persist). `fatal`
models a Rust panic (the unwrap in Wal::finalize). -/
inductive WalRes where
  | ok (w : Wal)
  | err (w : Wal)
  | fatal
deriving DecidableEq, Repr

/-- Translation of the file-id computation at the top of Wal::commit:
self.block_cache.back().map_or(0, |block| block.0 + 1). -/
def assignedFileId (w : Wal) : Nat :=
  match BlockCache.back w.block_cache with
  | some blk => blk.1 + 1
  | none => 0

/-- Translation of Wal::commit (mod.rs lines 90-103). The block cache is
extended first, then the entry is written to storage; writeOk is the oracle
for the durable write succeeding. On a failed write the cache extension
persists (the source performs no rollback) and storage is unchanged (spec
section 4.1: log state unchanged on failure). -/
def Wal.commitR (writeOk : Bool) (target : NotificationCommitTarget)
    (n : ExExNotification) (w : Wal) : WalRes :=
  let file_id := assignedFileId w
  let cache1 := BlockCache.insert_notification_blocks_with_file_id w.block_cache file_id n
  if writeOk then
    .ok ⟨Storage.write_entry w.storage file_id ⟨target, n⟩, cache1⟩
  else
    .err ⟨w.storage, cache1⟩

/-- Translation of Wal::remove (mod.rs lines 79-83): the storage removal runs
first and an error from it (NotFound, or an I/O failure modelled by
removeOk = false) returns before the cache is touched. -/
def Wal.removeR (removeOk : Bool) (file_id : Nat) (w : Wal) : WalRes :=
  if removeOk then
    match Storage.remove_entry w.storage file_id with
    | none => .err w
    | some st1 => .ok ⟨st1, BlockCache.remove_notification w.block_cache file_id⟩
  else
    .err w

/-- The matching test inside Wal::finalize's cache scan: block.action.is_commit()
and block.block.number == to_block.number and block.block.hash == to_block.hash. -/
def rowMatches (tb : BlockNumHash) (blk : CachedBlock) : Bool :=
  blk.action.is_commit && (blk.block.number == tb.number) && (blk.block.hash == tb.hash)

/-- The boundary file id finalize pops the cache up to. `fid k` is an actual
file id; `top` models the u64::MAX sentinel used when the matched entry has
no successor row (no live file id ever equals the sentinel, so `stopsAt top`
is constantly false). -/
inductive Boundary where
  | fid (k : Nat)
  | top
deriving DecidableEq, Repr

/-- Whether the pop loop in Wal::finalize stops at a row with this file id
(the file_id == remove_to_file_id comparison). -/
def Boundary.stopsAt : Boundary → Nat → Bool
  | .fid k, f => f == k
  | .top, _ => false

/-- Outcome of the cache scan in Wal::finalize: the final value of
unfinalized_from_file_id, an error from the storage read, or a Rust panic
from the unwrap on a missing committed chain. -/
inductive ScanOut where
  | done (bd : Option Boundary)
  | readErr
  | fatal
deriving DecidableEq, Repr

/-- Translation of the scanning loop of Wal::finalize (mod.rs lines 116-145):
walk the cache rows; on a non-matching row record its file id as the
candidate boundary; on the first matching Commit row read the stored entry
and pick the boundary from the committed-chain length, then stop. readOk is
the oracle for the storage read succeeding. -/
def scanCache (st : Storage) (readOk : Bool) (tb : BlockNumHash) :
    List (Nat × CachedBlock) → Option Boundary → ScanOut
  | [], acc => .done acc
  | (file_id, blk) :: rest, _acc =>
    if rowMatches tb blk then
      if readOk then
        match Storage.read_entry st file_id with
        | none => .readErr
        | some entry =>
          match entry.notification.committed_chain with
          | none => .fatal
          | some chain =>
            if chain.length == 1 then
              .done (some (match rest.head? with
                | some r => .fid r.1
                | none => .top))
            else
              .done (some (.fid file_id))
      else .readErr
    else
      scanCache st readOk tb rest (some (.fid file_id))

/-- The get_or_insert update of file_range_start in Wal::finalize. -/
def optOr (a b : Option Nat) : Option Nat :=
  match a with
  | some x => some x
  | none => b

/-- Translation of the pop_front loop of Wal::finalize (mod.rs lines
155-164): pop rows from the front until the front row carries the boundary
file id, tracking the first and last popped file ids. -/
def popLoop (bd : Boundary) :
    BlockCache → Option Nat → Option Nat → BlockCache × Option Nat × Option Nat
  | [], s, e => ([], s, e)
  | (file_id, blk) :: rest, s, e =>
    if bd.stopsAt file_id then ((file_id, blk) :: rest, s, e)
    else popLoop bd rest (optOr s (some file_id)) (some file_id)

/-- Translation of Wal::finalize (mod.rs lines 112-177). readOk is the oracle
for the storage read inside the scan, removeOk for the storage range
removal; the scan mutates nothing, so a scan error leaves the state as it
was, while a removal error leaves the already-trimmed cache with the
storage untouched. -/
def Wal.finalizeR (readOk removeOk : Bool) (tb : BlockNumHash) (w : Wal) : WalRes :=
  match scanCache w.storage readOk tb w.block_cache none with
  | .readErr => .err w
  | .fatal => .fatal
  | .done none => .ok w
  | .done (some bd) =>
    match popLoop bd w.block_cache none none with
    | (cache1, some a, some b) =>
      if removeOk then .ok ⟨Storage.remove_entries w.storage a b, cache1⟩
      else .err ⟨w.storage, cache1⟩
    | (cache1, _, _) => .ok ⟨w.storage, cache1⟩

/-- Translation of Wal::fill_block_cache (mod.rs lines 54-75): walk the full
files_range of storage and insert every entry's rows into the cache. -/
def Wal.fill_block_cache (w : Wal) : Wal :=
  match Storage.files_range w.storage with
  | none => w
  | some r =>
    ⟨w.storage,
     (Storage.entriesIn w.storage r.1 r.2).foldl
       (fun c kv => BlockCache.insert_notification_blocks_with_file_id c kv.1 kv.2.notification)
       w.block_cache⟩

/-- Translation of Wal::new (mod.rs lines 46-50) given the recovered durable
state: start from an empty cache and fill it from storage. -/
def Wal.new (s : Storage) : Wal :=
  Wal.fill_block_cache ⟨s, []⟩

/-- Translation of Wal::entries (mod.rs lines 180-186): none from files_range
yields Ok with the empty sequence, otherwise the entries of the full live
range. -/
def Wal.entries (w : Wal) : Except Unit (List (Nat × WalEntry)) :=
  match Storage.files_range w.storage with
  | none => .ok []
  | some r => .ok (Storage.entriesIn w.storage r.1 r.2)

/-- One external Wal operation, for reasoning about call sequences. -/
inductive WalOp where
  | commit (target : NotificationCommitTarget) (n : ExExNotification)
  | finalize (tb : BlockNumHash)
  | remove (file_id : Nat)
deriving DecidableEq, Repr

/-- Well-formedness of an operation: committed notifications carry non-empty
chains (spec sections 3 and 6). -/
def WalOp.wf : WalOp → Bool
  | .commit _ n => n.wf
  | _ => true

/-- Run a sequence of operations with all storage oracles succeeding,
collecting the file id assigned by each commit; none as soon as any
operation does not return Ok. -/
def runOpsTrace : List WalOp → Wal → Option (Wal × List Nat)
  | [], w => some (w, [])
  | op :: rest, w =>
    let res := match op with
      | .commit t n => Wal.commitR true t n w
      | .finalize tb => Wal.finalizeR true true tb w
      | .remove file_id => Wal.removeR true file_id w
    match res with
    | .ok w1 =>
      match runOpsTrace rest w1 with
      | some (w2, tr) =>
        some (w2, (match op with | .commit _ _ => [assignedFileId w] | _ => []) ++ tr)
      | none => none
    | _ => none

/-- Run a sequence of operations, all oracles succeeding; none as soon as any
operation does not return Ok. -/
def runOps (ops : List WalOp) (w : Wal) : Option Wal :=
  (runOpsTrace ops w).map (·.1)

/-- The file ids of the storage entries, in log order. -/
def Storage.keys (s : Storage) : List Nat := s.map (·.1)

/-- The block cache a given storage state induces: the concatenation of every
entry's cache-row expansion, in file-id order. This is the cache
Wal::new's recovery rebuilds and every successful operation maintains. -/
def derivedCache (s : Storage) : BlockCache :=
  s.flatMap (fun kv => cacheRows kv.1 kv.2.notification)

/-- The state well-formedness every reachable Wal satisfies: storage keys
strictly increasing, all stored notifications well-formed, and the block
cache equal to the cache derived from storage. -/
def WalWf (w : Wal) : Prop :=
  (Storage.keys w.storage).Pairwise (· < ·) ∧
  (∀ kv ∈ w.storage, kv.2.notification.wf = true) ∧
  w.block_cache = derivedCache w.storage

/-! ### Basic facts about the cache-row expansion and row matching -/

lemma cacheRows_fid {file_id : Nat} {n : ExExNotification} :
    ∀ r ∈ cacheRows file_id n, r.1 = file_id := by
  intro r hr
  simp only [cacheRows, List.mem_append, List.mem_map] at hr
  rcases hr with ⟨b, _, rfl⟩ | ⟨b, _, rfl⟩ <;> rfl

lemma cacheRows_ne_nil {file_id : Nat} {n : ExExNotification} (h : n.wf = true) :
    cacheRows file_id n ≠ [] := by
  cases n with
  | ChainCommitted new =>
    simp only [ExExNotification.wf, Bool.not_eq_true', List.isEmpty_eq_false] at h
    simp [cacheRows, ExExNotification.committed_chain, ExExNotification.reverted_chain, h]
  | ChainReverted old =>
    simp only [ExExNotification.wf, Bool.not_eq_true', List.isEmpty_eq_false] at h
    simp [cacheRows, ExExNotification.committed_chain, ExExNotification.reverted_chain, h]
  | ChainReorged old new =>
    simp only [ExExNotification.wf, Bool.and_eq_true, Bool.not_eq_true',
      List.isEmpty_eq_false] at h
    simp [cacheRows, ExExNotification.committed_chain, ExExNotification.reverted_chain, h.1]

lemma rowMatches_iff {tb : BlockNumHash} {blk : CachedBlock} :
    rowMatches tb blk = true ↔ (blk.action = CachedBlockAction.Commit ∧ blk.block = tb) := by
  obtain ⟨a, b⟩ := blk
  obtain ⟨n1, h1⟩ := b
  obtain ⟨n2, h2⟩ := tb
  cases a <;>
    simp [rowMatches, CachedBlockAction.is_commit, BlockNumHash.mk.injEq, and_assoc]

lemma rowMatches_revert {tb : BlockNumHash} {b : BlockNumHash} :
    rowMatches tb (CachedBlock.mk .Revert b) = false := by
  simp [rowMatches, CachedBlockAction.is_commit]

lemma optOr_none (s : Option Nat) : optOr s none = s := by
  cases s <;> rfl

lemma optOr_absorb (s : Option Nat) (a : Nat) (x : Option Nat) :
    optOr (optOr s (some a)) x = optOr s (some a) := by
  cases s <;> rfl

lemma mem_of_getLast? {α : Type} {l : List α} {a : α} (h : l.getLast? = some a) : a ∈ l := by
  induction l with
  | nil => simp at h
  | cons x rest ih =>
    cases rest with
    | nil =>
      simp only [List.getLast?_singleton, Option.some.injEq] at h
      simp [h]
    | cons y t =>
      rw [List.getLast?_cons_cons] at h
      exact List.mem_cons_of_mem _ (ih h)

/-! ### The cache scan of finalize -/

/-- The candidate boundary after scanning past a run of rows: the file id of
the last row scanned, or the incoming accumulator if none were. -/
def lastAcc (rows : List (Nat × CachedBlock)) (acc : Option Boundary) : Option Boundary :=
  match rows.getLast? with
  | some r => some (.fid r.1)
  | none => acc

lemma lastAcc_cons (r : Nat × CachedBlock) (rest : List (Nat × CachedBlock))
    (acc : Option Boundary) :
    lastAcc (r :: rest) acc = lastAcc rest (some (.fid r.1)) := by
  cases rest with
  | nil => rfl
  | cons r2 rest2 =>
    simp only [lastAcc, List.getLast?_cons_cons]
    cases hgl : (r2 :: rest2).getLast? with
    | none => simp at hgl
    | some r3 => rfl

lemma scanCache_skip (st : Storage) (ro : Bool) (tb : BlockNumHash)
    (rows1 rows2 : List (Nat × CachedBlock))
    (h : ∀ r ∈ rows1, rowMatches tb r.2 = false) :
    ∀ acc, scanCache st ro tb (rows1 ++ rows2) acc
      = scanCache st ro tb rows2 (lastAcc rows1 acc) := by
  induction rows1 with
  | nil => intro acc; simp [lastAcc]
  | cons r rest ih =>
    intro acc
    obtain ⟨f, blk⟩ := r
    have hr : rowMatches tb blk = false := h (f, blk) (List.mem_cons_self _ _)
    have hrest : ∀ x ∈ rest, rowMatches tb x.2 = false :=
      fun x hx => h x (List.mem_cons_of_mem _ hx)
    rw [List.cons_append]
    rw [show scanCache st ro tb ((f, blk) :: (rest ++ rows2)) acc
        = scanCache st ro tb (rest ++ rows2) (some (.fid f)) from by
      simp [scanCache, hr]]
    rw [ih hrest, lastAcc_cons]

lemma scanCache_nil (st : Storage) (ro : Bool) (tb : BlockNumHash) (acc : Option Boundary) :
    scanCache st ro tb [] acc = .done acc := rfl

/-! ### The pop loop of finalize -/

/-- The file-range-end accumulator after popping a run of rows: the file id
of the last popped row, or the incoming value if none were. -/
def lastFidOr (rows : BlockCache) (e : Option Nat) : Option Nat :=
  match rows.getLast? with
  | some r => some r.1
  | none => e

lemma lastFidOr_cons (r : Nat × CachedBlock) (rest : BlockCache) (e : Option Nat) :
    lastFidOr (r :: rest) e = lastFidOr rest (some r.1) := by
  cases rest with
  | nil => rfl
  | cons r2 rest2 =>
    simp only [lastFidOr, List.getLast?_cons_cons]
    cases hgl : (r2 :: rest2).getLast? with
    | none => simp at hgl
    | some r3 => rfl

lemma popLoop_spec (bd : Boundary) (rows1 rows2 : BlockCache)
    (h1 : ∀ r ∈ rows1, bd.stopsAt r.1 = false)
    (h2 : ∀ r ∈ rows2.head?, bd.stopsAt r.1 = true) :
    ∀ s e, popLoop bd (rows1 ++ rows2) s e =
      (rows2, optOr s ((rows1.head?).map (·.1)), lastFidOr rows1 e) := by
  induction rows1 with
  | nil =>
    intro s e
    cases rows2 with
    | nil => simp [popLoop, optOr_none, lastFidOr]
    | cons r rest =>
      have hstop : bd.stopsAt r.1 = true := h2 r (by simp)
      obtain ⟨f, blk⟩ := r
      simp only [List.nil_append, List.head?_nil, Option.map_none', optOr_none, lastFidOr,
        List.getLast?_nil]
      simp [popLoop, hstop]
  | cons r rest ih =>
    intro s e
    obtain ⟨f, blk⟩ := r
    have hr : bd.stopsAt f = false := h1 (f, blk) (List.mem_cons_self _ _)
    have hrest : ∀ x ∈ rest, bd.stopsAt x.1 = false :=
      fun x hx => h1 x (List.mem_cons_of_mem _ hx)
    rw [List.cons_append]
    rw [show popLoop bd ((f, blk) :: (rest ++ rows2)) s e
        = popLoop bd (rest ++ rows2) (optOr s (some f)) (some f) from by
      simp [popLoop, hr]]
    rw [ih hrest, lastFidOr_cons]
    simp only [List.head?_cons, Option.map_some', optOr_absorb]

/-! ### Storage lemmas -/

lemma read_entry_split (sA sB : Storage) (file_id : Nat) (e : WalEntry)
    (h : ∀ k ∈ Storage.keys sA, k ≠ file_id) :
    Storage.read_entry (sA ++ (file_id, e) :: sB) file_id = some e := by
  induction sA with
  | nil =>
    simp [Storage.read_entry]
  | cons kv rest ih =>
    have hk : kv.1 ≠ file_id := h kv.1 (by simp [Storage.keys])
    have hrest : ∀ k ∈ Storage.keys rest, k ≠ file_id :=
      fun k hkk => h k (by simp [Storage.keys] at hkk ⊢; exact Or.inr hkk)
    simp only [Storage.read_entry, List.cons_append] at ih ⊢
    rw [List.find?_cons_of_neg _ (by simpa using hk)]
    exact ih hrest

lemma remove_entries_split (sA sB : Storage) (a b : Nat)
    (hA : ∀ kv ∈ sA, a ≤ kv.1 ∧ kv.1 ≤ b)
    (hB : ∀ kv ∈ sB, b < kv.1) :
    Storage.remove_entries (sA ++ sB) a b = sB := by
  unfold Storage.remove_entries
  rw [List.filter_append]
  have h1 : sA.filter (fun kv => !(decide (a ≤ kv.1) && decide (kv.1 ≤ b))) = [] := by
    rw [List.filter_eq_nil_iff]
    intro kv hkv
    simp [(hA kv hkv).1, (hA kv hkv).2]
  have h2 : sB.filter (fun kv => !(decide (a ≤ kv.1) && decide (kv.1 ≤ b))) = sB := by
    rw [List.filter_eq_self]
    intro kv hkv
    simp [Nat.not_le.2 (hB kv hkv)]
  rw [h1, h2, List.nil_append]

lemma write_entry_gt (s : Storage) (file_id : Nat) (e : WalEntry)
    (h : ∀ k ∈ Storage.keys s, k < file_id) :
    Storage.write_entry s file_id e = s ++ [(file_id, e)] := by
  induction s with
  | nil => rfl
  | cons kv rest ih =>
    obtain ⟨k, v⟩ := kv
    have hk : k < file_id := h k (by simp [Storage.keys])
    have hrest : ∀ x ∈ Storage.keys rest, x < file_id :=
      fun x hx => h x (by simp [Storage.keys] at hx ⊢; exact Or.inr hx)
    simp only [Storage.write_entry, List.cons_append]
    rw [if_neg (by omega), if_neg (by omega), ih hrest]

/-! ### Sorted key lemmas -/

lemma pairwise_head_le {l : List Nat} (h : l.Pairwise (· < ·)) :
    ∀ a ∈ l.head?, ∀ k ∈ l, a ≤ k := by
  cases l with
  | nil => simp
  | cons x rest =>
    intro a ha k hk
    simp only [List.head?_cons, Option.mem_def, Option.some.injEq] at ha
    subst ha
    rcases List.mem_cons.1 hk with rfl | hk2
    · exact le_refl _
    · exact le_of_lt ((List.pairwise_cons.1 h).1 k hk2)

lemma pairwise_le_getLast {l : List Nat} (h : l.Pairwise (· < ·)) :
    ∀ b ∈ l.getLast?, ∀ k ∈ l, k ≤ b := by
  induction l with
  | nil => simp
  | cons x rest ih =>
    intro b hb k hk
    cases rest with
    | nil =>
      simp only [List.getLast?_singleton, Option.mem_def, Option.some.injEq] at hb
      subst hb
      simp only [List.mem_singleton] at hk
      subst hk
      exact le_refl _
    | cons y t =>
      rw [List.getLast?_cons_cons] at hb
      rcases List.mem_cons.1 hk with rfl | hk2
      · have hbmem : b ∈ y :: t := mem_of_getLast? hb
        exact le_of_lt ((List.pairwise_cons.1 h).1 b hbmem)
      · exact ih (List.pairwise_cons.1 h).2 b hb k hk2

/-! ### Derived-cache lemmas -/

lemma derivedCache_nil : derivedCache [] = [] := rfl

lemma derivedCache_cons (kv : Nat × WalEntry) (rest : Storage) :
    derivedCache (kv :: rest) = cacheRows kv.1 kv.2.notification ++ derivedCache rest := by
  simp [derivedCache]

lemma derivedCache_append (s1 s2 : Storage) :
    derivedCache (s1 ++ s2) = derivedCache s1 ++ derivedCache s2 := by
  simp [derivedCache]

lemma derivedCache_fid {s : Storage} :
    ∀ r ∈ derivedCache s, r.1 ∈ Storage.keys s := by
  intro r hr
  obtain ⟨kv, hkv, hrkv⟩ := List.mem_flatMap.1 hr
  have := cacheRows_fid r hrkv
  simp [Storage.keys, this]
  exact ⟨kv.2, by rw [← this]; exact (by simpa [this] using hkv)⟩

lemma derivedCache_ne_nil {s : Storage} (hs : s ≠ [])
    (hwf : ∀ kv ∈ s, kv.2.notification.wf = true) :
    derivedCache s ≠ [] := by
  cases s with
  | nil => exact absurd rfl hs
  | cons kv rest =>
    rw [derivedCache_cons]
    have : cacheRows kv.1 kv.2.notification ≠ [] :=
      cacheRows_ne_nil (hwf kv (List.mem_cons_self _ _))
    intro hcontra
    exact this (List.append_eq_nil.1 hcontra).1

lemma derivedCache_head_fid (s : Storage)
    (hwf : ∀ kv ∈ s, kv.2.notification.wf = true) :
    (derivedCache s).head?.map (·.1) = (Storage.keys s).head? := by
  cases s with
  | nil => rfl
  | cons kv rest =>
    have hne : cacheRows kv.1 kv.2.notification ≠ [] :=
      cacheRows_ne_nil (hwf kv (List.mem_cons_self _ _))
    obtain ⟨r, rs, hr⟩ := List.exists_cons_of_ne_nil hne
    have hfid : r.1 = kv.1 := cacheRows_fid r (by rw [hr]; exact List.mem_cons_self _ _)
    rw [derivedCache_cons, hr]
    simp [Storage.keys, hfid]

lemma derivedCache_getLast_fid (s : Storage)
    (hwf : ∀ kv ∈ s, kv.2.notification.wf = true) :
    (derivedCache s).getLast?.map (·.1) = (Storage.keys s).getLast? := by
  induction s with
  | nil => rfl
  | cons kv rest ih =>
    have hne : cacheRows kv.1 kv.2.notification ≠ [] :=
      cacheRows_ne_nil (hwf kv (List.mem_cons_self _ _))
    rw [derivedCache_cons]
    cases hrest : rest with
    | nil =>
      subst hrest
      rw [derivedCache_nil, List.append_nil]
      cases hgl : (cacheRows kv.1 kv.2.notification).getLast? with
      | none => exact absurd (List.getLast?_eq_none_iff.1 hgl) hne
      | some r =>
        have hfid : r.1 = kv.1 := cacheRows_fid r (mem_of_getLast? hgl)
        simp [Storage.keys, hgl, hfid]
    | cons kv2 rest2 =>
      subst hrest
      have hwfrest : ∀ x ∈ kv2 :: rest2, x.2.notification.wf = true :=
        fun x hx => hwf x (List.mem_cons_of_mem _ hx)
      have hdne : derivedCache (kv2 :: rest2) ≠ [] :=
        derivedCache_ne_nil (by simp) hwfrest
      rw [List.getLast?_append]
      cases hgl : (derivedCache (kv2 :: rest2)).getLast? with
      | none => exact absurd (List.getLast?_eq_none_iff.1 hgl) hdne
      | some r =>
        have hih := ih hwfrest
        rw [hgl] at hih
        simpa [Storage.keys, Option.or] using hih

lemma mem_keys_iff_mem_derived (s : Storage)
    (hwf : ∀ kv ∈ s, kv.2.notification.wf = true) (f : Nat) :
    f ∈ (derivedCache s).map (·.1) ↔ f ∈ Storage.keys s := by
  constructor
  · intro hf
    obtain ⟨r, hr, hrf⟩ := List.mem_map.1 hf
    exact hrf ▸ derivedCache_fid r hr
  · intro hf
    obtain ⟨kv, hkv, hkvf⟩ := List.mem_map.1 hf
    have hne : cacheRows kv.1 kv.2.notification ≠ [] := cacheRows_ne_nil (hwf kv hkv)
    obtain ⟨r, rs, hr⟩ := List.exists_cons_of_ne_nil hne
    refine List.mem_map.2 ⟨r, ?_, ?_⟩
    · exact List.mem_flatMap.2 ⟨kv, hkv, by rw [hr]; exact List.mem_cons_self _ _⟩
    · rw [cacheRows_fid r (by rw [hr]; exact List.mem_cons_self _ _), hkvf]

lemma cacheRows_filter_ne (k file_id : Nat) (n : ExExNotification) :
    (cacheRows k n).filter (fun r => r.1 != file_id)
      = if k = file_id then [] else cacheRows k n := by
  by_cases hk : k = file_id
  · subst hk
    rw [if_pos rfl, List.filter_eq_nil_iff]
    intro r hr
    simp [cacheRows_fid r hr]
  · rw [if_neg hk, List.filter_eq_self]
    intro r hr
    simp [cacheRows_fid r hr, hk]

lemma derivedCache_remove (s : Storage) (file_id : Nat) :
    (derivedCache s).filter (fun r => r.1 != file_id)
      = derivedCache (s.filter (fun kv => kv.1 != file_id)) := by
  induction s with
  | nil => rfl
  | cons kv rest ih =>
    rw [derivedCache_cons, List.filter_append, ih, List.filter_cons]
    by_cases hk : kv.1 = file_id
    · rw [cacheRows_filter_ne, if_pos hk]
      simp [hk]
    · rw [cacheRows_filter_ne, if_neg hk]
      have hb : (kv.1 != file_id) = true := by simpa using hk
      simp [hb, derivedCache_cons]

/-! ### Matching-freeness and stop-condition helpers -/

lemma derivedCache_no_match (s : Storage) (tb : BlockNumHash)
    (h : ∀ kv ∈ s, ∀ c, kv.2.notification.committed_chain = some c → tb ∉ c) :
    ∀ r ∈ derivedCache s, rowMatches tb r.2 = false := by
  intro r hr
  obtain ⟨kv, hkv, hrkv⟩ := List.mem_flatMap.1 hr
  simp only [cacheRows, List.mem_append, List.mem_map] at hrkv
  rcases hrkv with ⟨b, hb, hre⟩ | ⟨b, hb, hre⟩
  · rw [← hre]
    exact rowMatches_revert
  · rw [← hre]
    cases hcc : kv.2.notification.committed_chain with
    | none => rw [hcc] at hb; simp at hb
    | some c =>
      rw [hcc] at hb
      simp only [Option.getD_some] at hb
      have hbtb : b ≠ tb := fun hbeq => (h kv hkv c hcc) (hbeq ▸ hb)
      rw [Bool.eq_false_iff]
      intro hm
      exact hbtb (rowMatches_iff.1 hm).2

lemma noMatch_revRows (tb : BlockNumHash) (fid : Nat) (l : List BlockNumHash) :
    ∀ r ∈ l.map (fun b => (fid, CachedBlock.mk .Revert b)), rowMatches tb r.2 = false := by
  intro r hr
  obtain ⟨b, _, rfl⟩ := List.mem_map.1 hr
  exact rowMatches_revert

lemma noMatch_commitRows (tb : BlockNumHash) (fid : Nat) (l : List BlockNumHash)
    (h : ∀ x ∈ l, x ≠ tb) :
    ∀ r ∈ l.map (fun b => (fid, CachedBlock.mk .Commit b)), rowMatches tb r.2 = false := by
  intro r hr
  obtain ⟨b, hb, rfl⟩ := List.mem_map.1 hr
  rw [Bool.eq_false_iff]
  intro hm
  exact (h b hb) (rowMatches_iff.1 hm).2

lemma stops_top_false (rows : BlockCache) :
    ∀ r ∈ rows, Boundary.stopsAt .top r.1 = false := by
  intro r _
  rfl

lemma stops_fid_false_of_ne (sP : Storage) (k : Nat)
    (h : ∀ x ∈ Storage.keys sP, x ≠ k) :
    ∀ r ∈ derivedCache sP, Boundary.stopsAt (.fid k) r.1 = false := by
  intro r hr
  have := derivedCache_fid r hr
  simp [Boundary.stopsAt, h r.1 this]

lemma stops_head_true (sS : Storage) (k : Nat)
    (hh : (Storage.keys sS).head? = some k)
    (hwf : ∀ kv ∈ sS, kv.2.notification.wf = true) :
    ∀ r ∈ (derivedCache sS).head?, Boundary.stopsAt (.fid k) r.1 = true := by
  intro r hr
  have hhd := derivedCache_head_fid sS hwf
  rw [hh] at hhd
  cases hdc : (derivedCache sS).head? with
  | none => rw [hdc] at hr; simp at hr
  | some r2 =>
    rw [hdc] at hr hhd
    simp only [Option.mem_def, Option.some.injEq] at hr
    subst hr
    simp only [Option.map_some', Option.some.injEq] at hhd
    simp [Boundary.stopsAt, hhd]

/-! ### The scan step at the first matching row -/

lemma scan_at_match (st : Storage) (tb : BlockNumHash) (rows1 : List (Nat × CachedBlock))
    (fid : Nat) (rest : List (Nat × CachedBlock)) (entry : WalEntry)
    (chain : List BlockNumHash)
    (h1 : ∀ r ∈ rows1, rowMatches tb r.2 = false)
    (hread : Storage.read_entry st fid = some entry)
    (hchain : entry.notification.committed_chain = some chain) :
    scanCache st true tb (rows1 ++ (fid, CachedBlock.mk .Commit tb) :: rest) none
      = .done (some (if chain.length = 1 then
          (match rest.head? with | some r => Boundary.fid r.1 | none => Boundary.top)
        else .fid fid)) := by
  rw [scanCache_skip st true tb rows1 _ h1]
  have hm : rowMatches tb (CachedBlock.mk .Commit tb) = true := by
    rw [rowMatches_iff]
    exact ⟨rfl, rfl⟩
  by_cases hl : chain.length = 1
  · simp [scanCache, hm, hread, hchain, hl]
  · simp [scanCache, hm, hread, hchain, hl]

/-! ### The pop-and-remove tail of finalize -/

lemma keys_append (s1 s2 : Storage) :
    Storage.keys (s1 ++ s2) = Storage.keys s1 ++ Storage.keys s2 := by
  simp [Storage.keys]

lemma lastFidOr_none_eq (rows : BlockCache) :
    lastFidOr rows none = rows.getLast?.map (·.1) := by
  cases h : rows.getLast? <;> simp [lastFidOr, h]

lemma optOr_none_left (b : Option Nat) : optOr none b = b := rfl

/-- After the scan has produced a boundary, the rest of finalize pops the
cache rows derived from the storage entries strictly before the boundary
and removes exactly those entries from storage, leaving the suffix. -/
lemma pop_remove_prefix (st sP sS : Storage) (bd : Boundary)
    (hst : st = sP ++ sS)
    (hsort : (Storage.keys st).Pairwise (· < ·))
    (hwf : ∀ kv ∈ st, kv.2.notification.wf = true)
    (hP : ∀ r ∈ derivedCache sP, bd.stopsAt r.1 = false)
    (hS : ∀ r ∈ (derivedCache sS).head?, bd.stopsAt r.1 = true) :
    (match popLoop bd (derivedCache st) none none with
      | (cache1, some a, some b) => WalRes.ok ⟨Storage.remove_entries st a b, cache1⟩
      | (cache1, _, _) => WalRes.ok ⟨st, cache1⟩)
    = WalRes.ok ⟨sS, derivedCache sS⟩ := by
  subst hst
  have hwfP : ∀ kv ∈ sP, kv.2.notification.wf = true :=
    fun kv hkv => hwf kv (List.mem_append_left _ hkv)
  have hwfS : ∀ kv ∈ sS, kv.2.notification.wf = true :=
    fun kv hkv => hwf kv (List.mem_append_right _ hkv)
  have hpop : popLoop bd (derivedCache (sP ++ sS)) none none
      = (derivedCache sS, (Storage.keys sP).head?, (Storage.keys sP).getLast?) := by
    rw [derivedCache_append, popLoop_spec bd _ _ hP hS, optOr_none_left, lastFidOr_none_eq,
      derivedCache_head_fid sP hwfP, derivedCache_getLast_fid sP hwfP]
  rw [hpop]
  cases hsP : sP with
  | nil =>
    simp [Storage.keys]
  | cons kv0 sP' =>
    have hkeys : Storage.keys (kv0 :: sP') = kv0.1 :: Storage.keys sP' := rfl
    cases hgl : (Storage.keys (kv0 :: sP')).getLast? with
    | none =>
      rw [hkeys] at hgl
      simp at hgl
    | some b =>
      have hh : (Storage.keys (kv0 :: sP')).head? = some kv0.1 := rfl
      rw [hh]
      have hsort2 : (Storage.keys sP ++ Storage.keys sS).Pairwise (· < ·) := by
        rw [← keys_append]; exact hsort
      have hsortP : (Storage.keys sP).Pairwise (· < ·) := (List.pairwise_append.1 hsort2).1
      have hcross : ∀ x ∈ Storage.keys sP, ∀ y ∈ Storage.keys sS, x < y :=
        (List.pairwise_append.1 hsort2).2.2
      have hglP : (Storage.keys sP).getLast? = some b := by rw [hsP]; exact hgl
      have hhdP : (Storage.keys sP).head? = some kv0.1 := by rw [hsP]; exact hh
      have hA : ∀ kv ∈ sP, kv0.1 ≤ kv.1 ∧ kv.1 ≤ b := by
        intro kv hkv
        have hmem : kv.1 ∈ Storage.keys sP := List.mem_map.2 ⟨kv, hkv, rfl⟩
        exact ⟨pairwise_head_le hsortP kv0.1 hhdP kv.1 hmem,
          pairwise_le_getLast hsortP b hglP kv.1 hmem⟩
      have hB : ∀ kv ∈ sS, b < kv.1 := by
        intro kv hkv
        have hbmem : b ∈ Storage.keys sP := mem_of_getLast? hglP
        exact hcross b hbmem kv.1 (List.mem_map.2 ⟨kv, hkv, rfl⟩)
      have hrem : Storage.remove_entries (sP ++ sS) kv0.1 b = sS :=
        remove_entries_split sP sS kv0.1 b hA hB
      rw [hsP] at hrem
      have hrem2 : Storage.remove_entries (kv0 :: (sP' ++ sS)) kv0.1 b = sS := hrem
      simp [hrem2]

/-! ### Finalize: the three behaviours of a successful run -/

lemma finalizeR_done_some (w : Wal) (tb : BlockNumHash) (bd : Boundary)
    (hscan : scanCache w.storage true tb w.block_cache none = .done (some bd)) :
    Wal.finalizeR true true tb w =
      (match popLoop bd w.block_cache none none with
        | (cache1, some a, some b) => WalRes.ok ⟨Storage.remove_entries w.storage a b, cache1⟩
        | (cache1, _, _) => WalRes.ok ⟨w.storage, cache1⟩) := by
  unfold Wal.finalizeR
  rw [hscan]
  rfl

/-- Finalize when the first cache row committing to_block belongs to an entry
whose committed chain holds other blocks besides to_block: the entry is
retained whole and exactly the entries before it are removed from both
sides. -/
lemma finalize_found_multi (w : Wal) (tb : BlockNumHash) (sA sB : Storage)
    (fid : Nat) (entry : WalEntry) (chain c1 c2 : List BlockNumHash)
    (hst : w.storage = sA ++ (fid, entry) :: sB)
    (hc : w.block_cache = derivedCache w.storage)
    (hsort : (Storage.keys w.storage).Pairwise (· < ·))
    (hwfall : ∀ kv ∈ w.storage, kv.2.notification.wf = true)
    (hchain : entry.notification.committed_chain = some chain)
    (hsplit : chain = c1 ++ tb :: c2)
    (hc1 : ∀ x ∈ c1, x ≠ tb)
    (hbefore : ∀ kv ∈ sA, ∀ c, kv.2.notification.committed_chain = some c → tb ∉ c)
    (hlen : chain.length ≠ 1) :
    Wal.finalizeR true true tb w
      = .ok ⟨(fid, entry) :: sB, derivedCache ((fid, entry) :: sB)⟩ := by
  have hkeys : Storage.keys w.storage = Storage.keys sA ++ fid :: Storage.keys sB := by
    rw [hst]; simp [Storage.keys]
  have hsort2 : (Storage.keys sA ++ fid :: Storage.keys sB).Pairwise (· < ·) :=
    hkeys ▸ hsort
  have hAlt : ∀ k ∈ Storage.keys sA, k < fid := fun k hk =>
    (List.pairwise_append.1 hsort2).2.2 k hk fid (List.mem_cons_self _ _)
  have hread : Storage.read_entry w.storage fid = some entry := by
    rw [hst]
    exact read_entry_split sA sB fid entry (fun k hk => Nat.ne_of_lt (hAlt k hk))
  have hrows : w.block_cache
      = (derivedCache sA
          ++ (((entry.notification.reverted_chain.getD []).map
                (fun b => (fid, CachedBlock.mk .Revert b)))
              ++ (c1.map (fun b => (fid, CachedBlock.mk .Commit b)))))
        ++ ((fid, CachedBlock.mk .Commit tb)
            :: ((c2.map (fun b => (fid, CachedBlock.mk .Commit b))) ++ derivedCache sB)) := by
    rw [hc, hst, derivedCache_append, derivedCache_cons]
    simp only [cacheRows, hchain, hsplit, Option.getD_some, List.map_append, List.map_cons]
    simp [List.append_assoc]
  have h1 : ∀ r ∈ (derivedCache sA
      ++ (((entry.notification.reverted_chain.getD []).map
            (fun b => (fid, CachedBlock.mk .Revert b)))
          ++ (c1.map (fun b => (fid, CachedBlock.mk .Commit b))))),
      rowMatches tb r.2 = false := by
    intro r hr
    rcases List.mem_append.1 hr with hrA | hrM
    · exact derivedCache_no_match sA tb hbefore r hrA
    · rcases List.mem_append.1 hrM with hrR | hrC
      · exact noMatch_revRows tb fid _ r hrR
      · exact noMatch_commitRows tb fid c1 hc1 r hrC
  have hscan : scanCache w.storage true tb w.block_cache none = .done (some (.fid fid)) := by
    rw [hrows, scan_at_match w.storage tb _ fid _ entry chain h1 hread hchain, if_neg hlen]
  rw [finalizeR_done_some w tb (.fid fid) hscan, hc, hst]
  have hsort3 : (Storage.keys (sA ++ (fid, entry) :: sB)).Pairwise (· < ·) := hst ▸ hsort
  have hwf3 : ∀ kv ∈ sA ++ (fid, entry) :: sB, kv.2.notification.wf = true :=
    fun kv hkv => hwfall kv (hst ▸ hkv)
  have hP : ∀ r ∈ derivedCache sA, Boundary.stopsAt (.fid fid) r.1 = false :=
    stops_fid_false_of_ne sA fid (fun x hx => Nat.ne_of_lt (hAlt x hx))
  have hS : ∀ r ∈ (derivedCache ((fid, entry) :: sB)).head?,
      Boundary.stopsAt (.fid fid) r.1 = true :=
    stops_head_true ((fid, entry) :: sB) fid rfl
      (fun kv hkv => hwf3 kv (by
        rcases List.mem_cons.1 hkv with rfl | hkv2
        · exact List.mem_append_right _ (List.mem_cons_self _ _)
        · exact List.mem_append_right _ (List.mem_cons_of_mem _ hkv2)))
  exact pop_remove_prefix _ sA ((fid, entry) :: sB) (.fid fid) rfl hsort3 hwf3 hP hS

/-- Finalize when the first cache row committing to_block belongs to an entry
whose committed chain is exactly the single block to_block: that entry and
every entry before it are removed from both cache and storage, leaving
exactly the later entries. -/
lemma finalize_found_single (w : Wal) (tb : BlockNumHash) (sA sB : Storage)
    (fid : Nat) (entry : WalEntry)
    (hst : w.storage = sA ++ (fid, entry) :: sB)
    (hc : w.block_cache = derivedCache w.storage)
    (hsort : (Storage.keys w.storage).Pairwise (· < ·))
    (hwfall : ∀ kv ∈ w.storage, kv.2.notification.wf = true)
    (hchain : entry.notification.committed_chain = some [tb])
    (hbefore : ∀ kv ∈ sA, ∀ c, kv.2.notification.committed_chain = some c → tb ∉ c) :
    Wal.finalizeR true true tb w = .ok ⟨sB, derivedCache sB⟩ := by
  have hkeys : Storage.keys w.storage = Storage.keys sA ++ fid :: Storage.keys sB := by
    rw [hst]; simp [Storage.keys]
  have hsort2 : (Storage.keys sA ++ fid :: Storage.keys sB).Pairwise (· < ·) :=
    hkeys ▸ hsort
  have hAlt : ∀ k ∈ Storage.keys sA, k < fid := fun k hk =>
    (List.pairwise_append.1 hsort2).2.2 k hk fid (List.mem_cons_self _ _)
  have hBgt : ∀ k ∈ Storage.keys sB, fid < k := fun k hk =>
    (List.pairwise_cons.1 (List.pairwise_append.1 hsort2).2.1).1 k hk
  have hread : Storage.read_entry w.storage fid = some entry := by
    rw [hst]
    exact read_entry_split sA sB fid entry (fun k hk => Nat.ne_of_lt (hAlt k hk))
  have hwfB : ∀ kv ∈ sB, kv.2.notification.wf = true := fun kv hkv =>
    hwfall kv (by rw [hst]; exact List.mem_append_right _ (List.mem_cons_of_mem _ hkv))
  have hrows : w.block_cache
      = (derivedCache sA
          ++ ((entry.notification.reverted_chain.getD []).map
                (fun b => (fid, CachedBlock.mk .Revert b))))
        ++ ((fid, CachedBlock.mk .Commit tb) :: derivedCache sB) := by
    rw [hc, hst, derivedCache_append, derivedCache_cons]
    simp only [cacheRows, hchain, Option.getD_some, List.map_cons, List.map_nil]
    simp [List.append_assoc]
  have h1 : ∀ r ∈ (derivedCache sA
      ++ ((entry.notification.reverted_chain.getD []).map
            (fun b => (fid, CachedBlock.mk .Revert b)))),
      rowMatches tb r.2 = false := by
    intro r hr
    rcases List.mem_append.1 hr with hrA | hrR
    · exact derivedCache_no_match sA tb hbefore r hrA
    · exact noMatch_revRows tb fid _ r hrR
  have hscan0 := scan_at_match w.storage tb _ fid (derivedCache sB) entry [tb] h1 hread hchain
  have hlen1 : ([tb] : List BlockNumHash).length = 1 := rfl
  rw [if_pos hlen1] at hscan0
  cases hsB : sB with
  | nil =>
    have hscan : scanCache w.storage true tb w.block_cache none = .done (some .top) := by
      rw [hrows, hscan0, hsB]
      rfl
    rw [finalizeR_done_some w tb .top hscan]
    have hsort3 : (Storage.keys (sA ++ [(fid, entry)])).Pairwise (· < ·) := by
      have : w.storage = sA ++ [(fid, entry)] := by rw [hst, hsB]
      exact this ▸ hsort
    have hwf3 : ∀ kv ∈ sA ++ [(fid, entry)], kv.2.notification.wf = true := by
      intro kv hkv
      refine hwfall kv ?_
      rw [hst, hsB]
      exact hkv
    have happ : w.storage = (sA ++ [(fid, entry)]) ++ ([] : Storage) := by
      rw [hst, hsB]
      simp
    rw [hc]
    rw [show derivedCache w.storage = derivedCache ((sA ++ [(fid, entry)]) ++ ([] : Storage))
      from by rw [← happ]]
    rw [show w.storage = (sA ++ [(fid, entry)]) ++ ([] : Storage) from happ]
    exact pop_remove_prefix _ (sA ++ [(fid, entry)]) [] .top rfl
      (happ ▸ hsort) (fun kv hkv => hwfall kv (happ ▸ hkv))
      (stops_top_false _) (by simp [derivedCache_nil])
  | cons kv2 sB' =>
    rw [← hsB]
    have hh2 : (Storage.keys sB).head? = some kv2.1 := by rw [hsB]; rfl
    have hwfB2 : ∀ kv ∈ sB, kv.2.notification.wf = true := hwfB
    have hdhead := derivedCache_head_fid sB hwfB2
    rw [hh2] at hdhead
    obtain ⟨r2, hr2, hr2f⟩ := Option.map_eq_some'.1 hdhead
    have hscan : scanCache w.storage true tb w.block_cache none
        = .done (some (.fid kv2.1)) := by
      rw [hrows, hscan0, hr2]
      simp [hr2f]
    rw [finalizeR_done_some w tb (.fid kv2.1) hscan]
    have happ : w.storage = (sA ++ [(fid, entry)]) ++ sB := by
      rw [hst]
      simp
    have hP : ∀ r ∈ derivedCache (sA ++ [(fid, entry)]),
        Boundary.stopsAt (.fid kv2.1) r.1 = false := by
      refine stops_fid_false_of_ne _ _ ?_
      intro x hx
      rw [keys_append] at hx
      have hfidlt : fid < kv2.1 := hBgt kv2.1 (by rw [hsB]; exact List.mem_cons_self _ _)
      rcases List.mem_append.1 hx with hxA | hxF
      · exact Nat.ne_of_lt (lt_trans (hAlt x hxA) hfidlt)
      · have : x = fid := by simpa [Storage.keys] using hxF
        exact this ▸ Nat.ne_of_lt hfidlt
    have hS : ∀ r ∈ (derivedCache sB).head?, Boundary.stopsAt (.fid kv2.1) r.1 = true :=
      stops_head_true sB kv2.1 hh2 hwfB2
    rw [hc]
    rw [show derivedCache w.storage = derivedCache ((sA ++ [(fid, entry)]) ++ sB)
      from by rw [← happ]]
    rw [show w.storage = (sA ++ [(fid, entry)]) ++ sB from happ]
    exact pop_remove_prefix _ (sA ++ [(fid, entry)]) sB (.fid kv2.1) rfl
      (happ ▸ hsort) (fun kv hkv => hwfall kv (happ ▸ hkv)) hP hS

/-- Finalize on an empty WAL is a no-op. -/
lemma finalize_empty (w : Wal) (tb : BlockNumHash)
    (hst : w.storage = []) (hc : w.block_cache = derivedCache w.storage) :
    Wal.finalizeR true true tb w = .ok w := by
  unfold Wal.finalizeR
  rw [hc, hst]
  rfl

/-- Finalize when no entry commits to_block and the WAL is non-empty: the
scan's candidate boundary ends at the last entry's file id, so every entry
before the last one is removed from cache and storage. This is the source's
actual not-found behaviour (it is not a no-op). -/
lemma finalize_notfound (w : Wal) (tb : BlockNumHash) (sA : Storage) (K : Nat) (eK : WalEntry)
    (hst : w.storage = sA ++ [(K, eK)])
    (hc : w.block_cache = derivedCache w.storage)
    (hsort : (Storage.keys w.storage).Pairwise (· < ·))
    (hwfall : ∀ kv ∈ w.storage, kv.2.notification.wf = true)
    (hnone : ∀ kv ∈ w.storage, ∀ c, kv.2.notification.committed_chain = some c → tb ∉ c) :
    Wal.finalizeR true true tb w = .ok ⟨[(K, eK)], derivedCache [(K, eK)]⟩ := by
  have hkeys : Storage.keys w.storage = Storage.keys sA ++ [K] := by
    rw [hst]; simp [Storage.keys]
  have hsort2 : (Storage.keys sA ++ [K]).Pairwise (· < ·) := hkeys ▸ hsort
  have hAlt : ∀ k ∈ Storage.keys sA, k < K := fun k hk =>
    (List.pairwise_append.1 hsort2).2.2 k hk K (List.mem_cons_self _ _)
  have hnomatch : ∀ r ∈ w.block_cache, rowMatches tb r.2 = false := by
    rw [hc]
    exact derivedCache_no_match w.storage tb hnone
  have hgl : w.block_cache.getLast? ≠ none := by
    rw [hc, hst]
    intro hcontra
    have : derivedCache (sA ++ [(K, eK)]) = [] := List.getLast?_eq_none_iff.1 hcontra
    exact derivedCache_ne_nil (by simp) (fun kv hkv => hwfall kv (hst ▸ hkv)) this
  obtain ⟨rL, hrL⟩ := Option.ne_none_iff_exists'.1 hgl
  have hrLK : rL.1 = K := by
    have hdgl := derivedCache_getLast_fid w.storage hwfall
    rw [← hc, hrL, hkeys] at hdgl
    simp only [Option.map_some', List.getLast?_append, List.getLast?_singleton,
      Option.or_some] at hdgl
    exact Option.some.inj hdgl
  have hscan : scanCache w.storage true tb w.block_cache none = .done (some (.fid K)) := by
    have hskip := scanCache_skip w.storage true tb w.block_cache [] hnomatch none
    rw [List.append_nil] at hskip
    rw [hskip, scanCache_nil]
    simp [lastAcc, hrL, hrLK]
  rw [finalizeR_done_some w tb (.fid K) hscan, hc]
  rw [show derivedCache w.storage = derivedCache (sA ++ [(K, eK)]) from by rw [hst]]
  rw [show w.storage = sA ++ [(K, eK)] from hst]
  refine pop_remove_prefix _ sA [(K, eK)] (.fid K) rfl (hst ▸ hsort)
    (fun kv hkv => hwfall kv (hst ▸ hkv)) ?_ ?_
  · exact stops_fid_false_of_ne sA K (fun x hx => Nat.ne_of_lt (hAlt x hx))
  · exact stops_head_true [(K, eK)] K rfl
      (fun kv hkv => hwfall kv (by
        rw [hst]
        exact List.mem_append_right _ hkv))

/-! ### The reachability invariant -/

lemma exists_first_split {α : Type} (p : α → Bool) :
    ∀ l : List α, l.any p = true →
      ∃ l1 a l2, l = l1 ++ a :: l2 ∧ p a = true ∧ ∀ x ∈ l1, p x = false := by
  intro l
  induction l with
  | nil => intro h; simp at h
  | cons x rest ih =>
    intro h
    by_cases hx : p x = true
    · exact ⟨[], x, rest, rfl, hx, by simp⟩
    · have hx2 : p x = false := Bool.eq_false_iff.2 hx
      have hrest : rest.any p = true := by
        simp only [List.any_cons, Bool.or_eq_true] at h
        rcases h with h | h
        · exact absurd h hx
        · exact h
      obtain ⟨l1, a, l2, heq, hpa, hl1⟩ := ih hrest
      refine ⟨x :: l1, a, l2, by rw [heq, List.cons_append], hpa, ?_⟩
      intro y hy
      rcases List.mem_cons.1 hy with rfl | hy2
      · exact hx2
      · exact hl1 y hy2

/-- Whether a stored entry's committed chain holds the given block: the search
finalize's cache scan performs, phrased on storage entries. -/
def entryCommitsBlock (tb : BlockNumHash) (kv : Nat × WalEntry) : Bool :=
  (kv.2.notification.committed_chain.getD []).any (fun b => b == tb)

lemma entryCommits_false (tb : BlockNumHash) (kv : Nat × WalEntry)
    (h : entryCommitsBlock tb kv = false) :
    ∀ c, kv.2.notification.committed_chain = some c → tb ∉ c := by
  intro c hc htb
  have : entryCommitsBlock tb kv = true := by
    unfold entryCommitsBlock
    rw [hc]
    simp only [Option.getD_some]
    exact List.any_eq_true.2 ⟨tb, htb, by simp⟩
  rw [h] at this
  exact Bool.false_ne_true this

lemma entryCommits_true (tb : BlockNumHash) (kv : Nat × WalEntry)
    (h : entryCommitsBlock tb kv = true) :
    ∃ c, kv.2.notification.committed_chain = some c ∧ tb ∈ c := by
  unfold entryCommitsBlock at h
  cases hc : kv.2.notification.committed_chain with
  | none => rw [hc] at h; simp at h
  | some c =>
    rw [hc] at h
    simp only [Option.getD_some] at h
    obtain ⟨b, hb, hbe⟩ := List.any_eq_true.1 h
    have hbtb : b = tb := by simpa using hbe
    exact ⟨c, rfl, hbtb ▸ hb⟩

lemma pairwise_suffix_cons {l1 : List Nat} {x : Nat} {l2 : List Nat}
    (h : (l1 ++ x :: l2).Pairwise (· < ·)) : (x :: l2).Pairwise (· < ·) :=
  (List.pairwise_append.1 h).2.1

/-- Finalize with all oracles succeeding preserves the reachability
invariant. -/
lemma finalize_wf_preserved (w w1 : Wal) (tb : BlockNumHash) (hw : WalWf w)
    (h : Wal.finalizeR true true tb w = .ok w1) : WalWf w1 := by
  obtain ⟨hsort, hwfall, hc⟩ := hw
  by_cases hmatch : w.storage.any (entryCommitsBlock tb) = true
  · obtain ⟨sA, kv, sB, hst, hkv, hA⟩ := exists_first_split _ _ hmatch
    obtain ⟨c, hcc, htb⟩ := entryCommits_true tb kv hkv
    have hbefore : ∀ x ∈ sA, ∀ cc, x.2.notification.committed_chain = some cc → tb ∉ cc :=
      fun x hx => entryCommits_false tb x (hA x hx)
    obtain ⟨c1, b0, c2, hceq, hb0, hc1f⟩ :=
      exists_first_split (fun b => b == tb) c (List.any_eq_true.2 ⟨tb, htb, by simp⟩)
    have hb0tb : b0 = tb := by simpa using hb0
    rw [hb0tb] at hceq
    have hc1 : ∀ x ∈ c1, x ≠ tb := fun x hx => by simpa using hc1f x hx
    obtain ⟨fid, entry⟩ := kv
    have hkeys : Storage.keys w.storage = Storage.keys sA ++ fid :: Storage.keys sB := by
      rw [hst]; simp [Storage.keys]
    have hsortTail : (fid :: Storage.keys sB).Pairwise (· < ·) :=
      pairwise_suffix_cons (hkeys ▸ hsort)
    have hwfTail : ∀ x ∈ (fid, entry) :: sB, x.2.notification.wf = true :=
      fun x hx => hwfall x (by rw [hst]; exact List.mem_append_right _ hx)
    by_cases hlen : c.length = 1
    · have hcnil : c = [tb] := by
        rw [hceq]
        rw [hceq] at hlen
        cases c1 with
        | nil =>
          cases c2 with
          | nil => rfl
          | cons _ _ => simp at hlen
        | cons _ _ => simp at hlen
      have hres := finalize_found_single w tb sA sB fid entry hst hc hsort hwfall
        (hcnil ▸ hcc) hbefore
      rw [h] at hres
      have hw1 : w1 = ⟨sB, derivedCache sB⟩ := WalRes.ok.inj hres
      subst hw1
      refine ⟨?_, ?_, rfl⟩
      · exact (List.pairwise_cons.1 hsortTail).2
      · exact fun x hx => hwfTail x (List.mem_cons_of_mem _ hx)
    · have hres := finalize_found_multi w tb sA sB fid entry c c1 c2 hst hc hsort hwfall
        hcc hceq hc1 hbefore hlen
      rw [h] at hres
      have hw1 : w1 = ⟨(fid, entry) :: sB, derivedCache ((fid, entry) :: sB)⟩ :=
        WalRes.ok.inj hres
      subst hw1
      refine ⟨?_, ?_, rfl⟩
      · have : Storage.keys ((fid, entry) :: sB) = fid :: Storage.keys sB := rfl
        rw [this]
        exact hsortTail
      · exact hwfTail
  · have hfalse : ∀ kv ∈ w.storage, entryCommitsBlock tb kv = false := by
      intro kv hkv
      cases hb : entryCommitsBlock tb kv with
      | false => rfl
      | true => exact absurd (List.any_eq_true.2 ⟨kv, hkv, hb⟩) hmatch
    have hnone : ∀ kv ∈ w.storage, ∀ c, kv.2.notification.committed_chain = some c → tb ∉ c :=
      fun kv hkv => entryCommits_false tb kv (hfalse kv hkv)
    rcases List.eq_nil_or_concat w.storage with hnil | ⟨sA, kvL, hconcat0⟩
    · have hres := finalize_empty w tb hnil hc
      rw [h] at hres
      have hw1 : w1 = w := WalRes.ok.inj hres
      subst hw1
      exact ⟨hsort, hwfall, hc⟩
    · obtain ⟨K, eK⟩ := kvL
      have hconcat : w.storage = sA ++ [(K, eK)] := by
        rw [hconcat0, List.concat_eq_append]
      have hres := finalize_notfound w tb sA K eK hconcat hc hsort hwfall hnone
      rw [h] at hres
      have hw1 : w1 = ⟨[(K, eK)], derivedCache [(K, eK)]⟩ := WalRes.ok.inj hres
      subst hw1
      refine ⟨?_, ?_, rfl⟩
      · simp [Storage.keys]
      · intro x hx
        have hxK : x = (K, eK) := by simpa using hx
        subst hxK
        exact hwfall (K, eK)
          (by rw [hconcat]; exact List.mem_append_right _ (List.mem_cons_self _ _))

/-- The successful result of Wal::commit: cache extended by the expansion,
entry written at the assigned file id. -/
def Wal.commitOk (target : NotificationCommitTarget) (n : ExExNotification) (w : Wal) : Wal :=
  ⟨Storage.write_entry w.storage (assignedFileId w) ⟨target, n⟩,
   BlockCache.insert_notification_blocks_with_file_id w.block_cache (assignedFileId w) n⟩

lemma commitR_true (target : NotificationCommitTarget) (n : ExExNotification) (w : Wal) :
    Wal.commitR true target n w = .ok (Wal.commitOk target n w) := rfl

/-- Under the invariant, the assigned file id is strictly greater than every
live storage key, so the write is a plain append. -/
lemma assignedFileId_gt (w : Wal) (hw : WalWf w) :
    ∀ k ∈ Storage.keys w.storage, k < assignedFileId w := by
  obtain ⟨hsort, hwfall, hc⟩ := hw
  intro k hk
  have hsne : w.storage ≠ [] := by
    intro hnil
    rw [hnil] at hk
    simp [Storage.keys] at hk
  have hkeysne : Storage.keys w.storage ≠ [] := by
    intro hnil
    rw [hnil] at hk
    simp at hk
  cases hgl : (Storage.keys w.storage).getLast? with
  | none => exact absurd (List.getLast?_eq_none_iff.1 hgl) hkeysne
  | some K =>
    have hkK : k ≤ K := pairwise_le_getLast hsort K hgl k hk
    have hdgl := derivedCache_getLast_fid w.storage hwfall
    rw [hgl] at hdgl
    obtain ⟨rL, hrL, hrLK⟩ := Option.map_eq_some'.1 hdgl
    have hfid : assignedFileId w = K + 1 := by
      unfold assignedFileId BlockCache.back
      rw [hc, hrL]
      simp [hrLK]
    omega

lemma commitOk_append (target : NotificationCommitTarget) (n : ExExNotification) (w : Wal)
    (hw : WalWf w) :
    Wal.commitOk target n w
      = ⟨w.storage ++ [(assignedFileId w, ⟨target, n⟩)],
         w.block_cache ++ cacheRows (assignedFileId w) n⟩ := by
  unfold Wal.commitOk BlockCache.insert_notification_blocks_with_file_id
  rw [write_entry_gt _ _ _ (assignedFileId_gt w hw)]

/-- Commit with a well-formed notification preserves the reachability
invariant. -/
lemma commit_wf_preserved (w : Wal) (target : NotificationCommitTarget)
    (n : ExExNotification) (hw : WalWf w) (hn : n.wf = true) :
    WalWf (Wal.commitOk target n w) := by
  rw [commitOk_append target n w hw]
  obtain ⟨hsort, hwfall, hc⟩ := hw
  refine ⟨?_, ?_, ?_⟩
  · rw [keys_append]
    rw [List.pairwise_append]
    refine ⟨hsort, by simp [Storage.keys], ?_⟩
    intro a ha b hb
    have hb1 : b = assignedFileId w := by simpa [Storage.keys] using hb
    rw [hb1]
    exact assignedFileId_gt w ⟨hsort, hwfall, hc⟩ a ha
  · intro kv hkv
    rcases List.mem_append.1 hkv with hkv1 | hkv2
    · exact hwfall kv hkv1
    · have : kv = (assignedFileId w, ⟨target, n⟩) := by simpa using hkv2
      rw [this]
      exact hn
  · rw [derivedCache_append, hc]
    simp [derivedCache]

/-- Remove with all oracles succeeding preserves the reachability
invariant. -/
lemma remove_wf_preserved (w w1 : Wal) (file_id : Nat) (hw : WalWf w)
    (h : Wal.removeR true file_id w = .ok w1) : WalWf w1 := by
  obtain ⟨hsort, hwfall, hc⟩ := hw
  unfold Wal.removeR at h
  rw [if_pos rfl] at h
  cases hre : Storage.remove_entry w.storage file_id with
  | none => rw [hre] at h; exact absurd h (by simp)
  | some st1 =>
    rw [hre] at h
    have hw1 : w1 = ⟨st1, BlockCache.remove_notification w.block_cache file_id⟩ :=
      (WalRes.ok.inj h).symm
    have hst1 : st1 = w.storage.filter (fun kv => kv.1 != file_id) := by
      unfold Storage.remove_entry at hre
      by_cases hrs : (Storage.read_entry w.storage file_id).isSome
      · rw [if_pos hrs] at hre
        exact (Option.some.inj hre).symm
      · rw [if_neg hrs] at hre
        exact absurd hre (by simp)
    subst hw1
    refine ⟨?_, ?_, ?_⟩
    · rw [hst1]
      exact List.Pairwise.sublist
        (List.Sublist.map _ (List.filter_sublist _)) hsort
    · intro kv hkv
      rw [hst1] at hkv
      exact hwfall kv (List.mem_of_mem_filter hkv)
    · rw [hst1]
      unfold BlockCache.remove_notification
      rw [hc]
      exact derivedCache_remove w.storage file_id

/-! ### Step equations for the operation runner -/

lemma runOpsTrace_nil (w : Wal) : runOpsTrace [] w = some (w, []) := rfl

lemma runOpsTrace_cons_commit (target : NotificationCommitTarget) (n : ExExNotification)
    (rest : List WalOp) (w : Wal) :
    runOpsTrace (.commit target n :: rest) w
      = (match runOpsTrace rest (Wal.commitOk target n w) with
         | some (w2, tr) => some (w2, assignedFileId w :: tr)
         | none => none) := rfl

lemma runOpsTrace_cons_finalize (tb : BlockNumHash) (rest : List WalOp) (w : Wal) :
    runOpsTrace (.finalize tb :: rest) w
      = (match Wal.finalizeR true true tb w with
         | .ok w1 => (match runOpsTrace rest w1 with
                      | some (w2, tr) => some (w2, tr)
                      | none => none)
         | _ => none) := by
  cases hres : Wal.finalizeR true true tb w with
  | ok w1 =>
    show (match Wal.finalizeR true true tb w with
          | .ok w1 => (match runOpsTrace rest w1 with
                       | some (w2, tr) => some (w2, ([] : List Nat) ++ tr)
                       | none => none)
          | _ => none) = _
    rw [hres]
    cases runOpsTrace rest w1 with
    | none => rfl
    | some p => rfl
  | err w1 =>
    show (match Wal.finalizeR true true tb w with
          | .ok w1 => (match runOpsTrace rest w1 with
                       | some (w2, tr) => some (w2, ([] : List Nat) ++ tr)
                       | none => none)
          | _ => none) = _
    rw [hres]
  | fatal =>
    show (match Wal.finalizeR true true tb w with
          | .ok w1 => (match runOpsTrace rest w1 with
                       | some (w2, tr) => some (w2, ([] : List Nat) ++ tr)
                       | none => none)
          | _ => none) = _
    rw [hres]

lemma runOpsTrace_cons_remove (file_id : Nat) (rest : List WalOp) (w : Wal) :
    runOpsTrace (.remove file_id :: rest) w
      = (match Wal.removeR true file_id w with
         | .ok w1 => (match runOpsTrace rest w1 with
                      | some (w2, tr) => some (w2, tr)
                      | none => none)
         | _ => none) := by
  cases hres : Wal.removeR true file_id w with
  | ok w1 =>
    show (match Wal.removeR true file_id w with
          | .ok w1 => (match runOpsTrace rest w1 with
                       | some (w2, tr) => some (w2, ([] : List Nat) ++ tr)
                       | none => none)
          | _ => none) = _
    rw [hres]
    cases runOpsTrace rest w1 with
    | none => rfl
    | some p => rfl
  | err w1 =>
    show (match Wal.removeR true file_id w with
          | .ok w1 => (match runOpsTrace rest w1 with
                       | some (w2, tr) => some (w2, ([] : List Nat) ++ tr)
                       | none => none)
          | _ => none) = _
    rw [hres]
  | fatal =>
    show (match Wal.removeR true file_id w with
          | .ok w1 => (match runOpsTrace rest w1 with
                       | some (w2, tr) => some (w2, ([] : List Nat) ++ tr)
                       | none => none)
          | _ => none) = _
    rw [hres]

/-- Every state reachable from a well-formed state by a sequence of
well-formed, all-succeeding operations is well-formed. -/
lemma runOpsTrace_wf : ∀ (ops : List WalOp) (w0 w1 : Wal) (tr : List Nat),
    WalWf w0 → (∀ op ∈ ops, op.wf = true) →
    runOpsTrace ops w0 = some (w1, tr) → WalWf w1 := by
  intro ops
  induction ops with
  | nil =>
    intro w0 w1 tr hw _ h
    rw [runOpsTrace_nil] at h
    obtain ⟨h1, _⟩ := Prod.mk.injEq .. ▸ Option.some.inj h
    rw [← h1]
    exact hw
  | cons op rest ih =>
    intro w0 w1 tr hw hwfops h
    have hwfrest : ∀ x ∈ rest, x.wf = true := fun x hx => hwfops x (List.mem_cons_of_mem _ hx)
    cases op with
    | commit target n =>
      have hn : n.wf = true := by
        have := hwfops _ (List.mem_cons_self _ _)
        simpa [WalOp.wf] using this
      rw [runOpsTrace_cons_commit] at h
      cases hrun : runOpsTrace rest (Wal.commitOk target n w0) with
      | none => rw [hrun] at h; exact absurd h (by simp)
      | some p =>
        obtain ⟨w2, tr2⟩ := p
        rw [hrun] at h
        have hw2 : w2 = w1 := by
          have := Option.some.inj h
          exact congrArg Prod.fst this
        rw [hw2] at hrun
        exact ih _ _ _ (commit_wf_preserved w0 target n hw hn) hwfrest hrun
    | finalize tb =>
      rw [runOpsTrace_cons_finalize] at h
      cases hres : Wal.finalizeR true true tb w0 with
      | ok wm =>
        rw [hres] at h
        have h2 : (match runOpsTrace rest wm with
                   | some (w2, tr) => some (w2, tr)
                   | none => none) = some (w1, tr) := h
        cases hrun : runOpsTrace rest wm with
        | none => rw [hrun] at h2; exact absurd h2 (by simp)
        | some p =>
          obtain ⟨w2, tr2⟩ := p
          rw [hrun] at h2
          have hw2 : w2 = w1 := congrArg Prod.fst (Option.some.inj h2)
          rw [hw2] at hrun
          exact ih _ _ _ (finalize_wf_preserved w0 wm tb hw hres) hwfrest hrun
      | err wm => rw [hres] at h; exact absurd h (by simp)
      | fatal => rw [hres] at h; exact absurd h (by simp)
    | remove file_id =>
      rw [runOpsTrace_cons_remove] at h
      cases hres : Wal.removeR true file_id w0 with
      | ok wm =>
        rw [hres] at h
        have h2 : (match runOpsTrace rest wm with
                   | some (w2, tr) => some (w2, tr)
                   | none => none) = some (w1, tr) := h
        cases hrun : runOpsTrace rest wm with
        | none => rw [hrun] at h2; exact absurd h2 (by simp)
        | some p =>
          obtain ⟨w2, tr2⟩ := p
          rw [hrun] at h2
          have hw2 : w2 = w1 := congrArg Prod.fst (Option.some.inj h2)
          rw [hw2] at hrun
          exact ih _ _ _ (remove_wf_preserved w0 wm file_id hw hres) hwfrest hrun
      | err wm => rw [hres] at h; exact absurd h (by simp)
      | fatal => rw [hres] at h; exact absurd h (by simp)

lemma walEmpty_wf : WalWf walEmpty := by
  refine ⟨?_, ?_, rfl⟩
  · simp [walEmpty, Storage.keys]
  · simp [walEmpty]

/-- Under the invariant, the cache's file id set equals the storage's key
set. -/
lemma walWf_same_fids (w : Wal) (hw : WalWf w) :
    ∀ f, f ∈ w.block_cache.map (·.1) ↔ f ∈ Storage.keys w.storage := by
  obtain ⟨hsort, hwfall, hc⟩ := hw
  intro f
  rw [hc]
  exact mem_keys_iff_mem_derived w.storage hwfall f

/-- Under the invariant, every live cache file id is strictly below the next
assigned file id. -/
lemma walWf_fid_lt_assigned (w : Wal) (hw : WalWf w) :
    ∀ r ∈ w.block_cache, r.1 < assignedFileId w := by
  intro r hr
  have hkey : r.1 ∈ Storage.keys w.storage := by
    obtain ⟨hsort, hwfall, hc⟩ := hw
    exact derivedCache_fid r (hc ▸ hr)
  exact assignedFileId_gt w hw r.1 hkey

/-! ### Commit-sequence lemmas -/

lemma assignedFileId_commitOk (w : Wal) (target : NotificationCommitTarget)
    (n : ExExNotification) (hw : WalWf w) (hn : n.wf = true) :
    assignedFileId (Wal.commitOk target n w) = assignedFileId w + 1 := by
  rw [commitOk_append target n w hw]
  have hne : cacheRows (assignedFileId w) n ≠ [] := cacheRows_ne_nil hn
  generalize hFid : assignedFileId w = fid at hne ⊢
  show (match (w.block_cache ++ cacheRows fid n).getLast? with
        | some blk => blk.1 + 1
        | none => 0) = fid + 1
  cases hgl : (cacheRows fid n).getLast? with
  | none => exact absurd (List.getLast?_eq_none_iff.1 hgl) hne
  | some r =>
    have hrf : r.1 = fid := cacheRows_fid r (mem_of_getLast? hgl)
    rw [List.getLast?_append, hgl]
    simp [hrf]

/-- The operation list consisting only of commits. -/
def commitsOnly (ps : List (NotificationCommitTarget × ExExNotification)) : List WalOp :=
  ps.map (fun p => .commit p.1 p.2)

lemma commitsOnly_trace : ∀ (ps : List (NotificationCommitTarget × ExExNotification))
    (w0 : Wal), WalWf w0 → (∀ p ∈ ps, (p.2).wf = true) →
    ∃ w1, runOpsTrace (commitsOnly ps) w0
      = some (w1, List.range' (assignedFileId w0) ps.length) := by
  intro ps
  induction ps with
  | nil =>
    intro w0 _ _
    exact ⟨w0, by simp [commitsOnly, runOpsTrace_nil, List.range']⟩
  | cons p rest ih =>
    intro w0 hw hwf
    obtain ⟨t, n⟩ := p
    have hn : n.wf = true := hwf (t, n) (List.mem_cons_self _ _)
    obtain ⟨w1, hrun⟩ := ih (Wal.commitOk t n w0) (commit_wf_preserved w0 t n hw hn)
      (fun q hq => hwf q (List.mem_cons_of_mem _ hq))
    refine ⟨w1, ?_⟩
    have hfid := assignedFileId_commitOk w0 t n hw hn
    rw [show commitsOnly ((t, n) :: rest) = .commit t n :: commitsOnly rest from rfl]
    rw [runOpsTrace_cons_commit, hrun, hfid]
    rfl

/-! ### Claim theorems -/

/-- Claim C1: for every sequence of commit / finalize / remove calls in which
every call returns Ok (with well-formed notifications, i.e. non-empty
chains), the set of file ids present in the block cache equals the set of
file ids present in storage. -/
theorem wal_cache_storage_consistency (ops : List WalOp) (w : Wal) (tr : List Nat)
    (hwf : ∀ op ∈ ops, op.wf = true)
    (hrun : runOpsTrace ops walEmpty = some (w, tr)) :
    ∀ f, f ∈ w.block_cache.map (·.1) ↔ f ∈ Storage.keys w.storage :=
  walWf_same_fids w (runOpsTrace_wf ops walEmpty w tr walEmpty_wf hwf hrun)

def c1n : ExExNotification := .ChainCommitted [⟨0, 5⟩]

def c1ops : List WalOp := [.commit .Commit c1n]

def c1w : Wal := ⟨[(0, ⟨.Commit, c1n⟩)], [(0, ⟨.Commit, ⟨0, 5⟩⟩)]⟩

/-- Witness for C1 at a concrete one-commit run. -/
theorem wal_cache_storage_consistency_witness :
    (∀ op ∈ c1ops, op.wf = true) ∧
    runOpsTrace c1ops walEmpty = some (c1w, [0]) ∧
    (∀ f, f ∈ c1w.block_cache.map (·.1) ↔ f ∈ Storage.keys c1w.storage) :=
  ⟨by decide, by decide,
   wal_cache_storage_consistency c1ops c1w [0] (by decide) (by decide)⟩

/-- Claim C2: on a well-formed WAL state whose first entry committing
to_block sits at file id fid (no earlier entry's committed chain holds
to_block), finalize(to_block) removes that entry and every entry before it
when to_block is the sole block of the entry's committed chain, and removes
exactly the entries with smaller file id — keeping the entry itself fully
intact in cache and storage — when the committed chain holds more than one
block. -/
theorem wal_finalize_atomic (w : Wal) (tb : BlockNumHash) (sA sB : Storage)
    (fid : Nat) (entry : WalEntry) (chain ca cb : List BlockNumHash)
    (hst : w.storage = sA ++ (fid, entry) :: sB)
    (hc : w.block_cache = derivedCache w.storage)
    (hsort : (Storage.keys w.storage).Pairwise (· < ·))
    (hwfall : ∀ kv ∈ w.storage, kv.2.notification.wf = true)
    (hchain : entry.notification.committed_chain = some chain)
    (hsplit : chain = ca ++ tb :: cb)
    (hca : ∀ x ∈ ca, x ≠ tb)
    (hbefore : ∀ kv ∈ sA, ∀ c, kv.2.notification.committed_chain = some c → tb ∉ c) :
    (chain.length = 1 →
      Wal.finalizeR true true tb w = .ok ⟨sB, derivedCache sB⟩) ∧
    (1 < chain.length →
      Wal.finalizeR true true tb w
        = .ok ⟨(fid, entry) :: sB, derivedCache ((fid, entry) :: sB)⟩) := by
  constructor
  · intro hlen
    have hca0 : ca.length = 0 ∧ cb.length = 0 := by
      rw [hsplit] at hlen
      simp only [List.length_append, List.length_cons] at hlen
      omega
    have hcnil : chain = [tb] := by
      rw [hsplit, List.length_eq_zero.1 hca0.1, List.length_eq_zero.1 hca0.2]
      rfl
    exact finalize_found_single w tb sA sB fid entry hst hc hsort hwfall
      (hcnil ▸ hchain) hbefore
  · intro hlen
    exact finalize_found_multi w tb sA sB fid entry chain ca cb hst hc hsort hwfall
      hchain hsplit hca hbefore (by omega)

def c2e0 : WalEntry := ⟨.Commit, .ChainCommitted [⟨0, 20⟩]⟩

def c2e1 : WalEntry := ⟨.Commit, .ChainCommitted [⟨1, 21⟩, ⟨2, 22⟩]⟩

def c2st : Storage := [(0, c2e0), (1, c2e1)]

def c2w : Wal := ⟨c2st, derivedCache c2st⟩

/-- Witness for C2 at a concrete two-entry state whose second entry commits
two blocks, finalizing to the first of them. -/
theorem wal_finalize_atomic_witness :
    (([⟨1, 21⟩, ⟨2, 22⟩] : List BlockNumHash).length = 1 →
      Wal.finalizeR true true ⟨1, 21⟩ c2w = .ok ⟨[], derivedCache []⟩) ∧
    (1 < ([⟨1, 21⟩, ⟨2, 22⟩] : List BlockNumHash).length →
      Wal.finalizeR true true ⟨1, 21⟩ c2w
        = .ok ⟨(1, c2e1) :: [], derivedCache ((1, c2e1) :: [])⟩) :=
  wal_finalize_atomic c2w ⟨1, 21⟩ [(0, c2e0)] [] 1 c2e1 [⟨1, 21⟩, ⟨2, 22⟩] [] [⟨2, 22⟩]
    rfl rfl (by decide) (by decide) rfl rfl (by decide)
    (by
      intro kv hkv c hcc
      have hkv0 : kv = (0, c2e0) := by simpa using hkv
      subst hkv0
      have hcc2 : c = [⟨0, 20⟩] := by
        simp only [c2e0, ExExNotification.committed_chain, Option.some.injEq] at hcc
        exact hcc.symm
      subst hcc2
      decide)

def c3e0 : WalEntry := ⟨.Commit, .ChainCommitted [⟨0, 10⟩]⟩

def c3e1 : WalEntry := ⟨.Commit, .ChainCommitted [⟨1, 11⟩]⟩

def c3st : Storage := [(0, c3e0), (1, c3e1)]

def c3w : Wal := ⟨c3st, derivedCache c3st⟩

/-- Claim C3 (code bug): with two entries and a to_block matching no cache
row, finalize returns Ok but is not a no-op: it removes every entry before
the last one from both the block cache and the storage, contradicting the
spec's P4 and the source's own comment that the not-found case just
returns. -/
theorem wal_finalize_absent_not_noop :
    (∀ r ∈ c3w.block_cache, rowMatches ⟨5, 55⟩ r.2 = false) ∧
    Wal.finalizeR true true ⟨5, 55⟩ c3w
      = .ok ⟨[(1, c3e1)], [(1, ⟨.Commit, ⟨1, 11⟩⟩)]⟩ ∧
    ¬ Wal.finalizeR true true ⟨5, 55⟩ c3w = .ok c3w := by decide

/-- Claim C4: commit assigns file id back+1 on a non-empty cache and 0 on an
empty one; a sequence of commits of well-formed notifications from the
empty WAL succeeds and assigns exactly the file ids 0, 1, 2, …. -/
theorem wal_commit_file_id_assignment
    (ps : List (NotificationCommitTarget × ExExNotification))
    (hwf : ∀ p ∈ ps, (p.2).wf = true) :
    (∀ w : Wal, w.block_cache = [] → assignedFileId w = 0) ∧
    (∀ (w : Wal) (r : Nat × CachedBlock),
      BlockCache.back w.block_cache = some r → assignedFileId w = r.1 + 1) ∧
    (∀ (w : Wal) (target : NotificationCommitTarget) (n : ExExNotification),
      Wal.commitR true target n w = .ok (Wal.commitOk target n w)) ∧
    (∃ w1, runOpsTrace (commitsOnly ps) walEmpty = some (w1, List.range ps.length)) := by
  refine ⟨?_, ?_, ?_, ?_⟩
  · intro w h
    unfold assignedFileId BlockCache.back
    rw [h]
    rfl
  · intro w r h
    unfold assignedFileId
    rw [h]
  · intro w target n
    exact commitR_true target n w
  · have h0 : assignedFileId walEmpty = 0 := rfl
    obtain ⟨w1, hrun⟩ := commitsOnly_trace ps walEmpty walEmpty_wf hwf
    rw [h0] at hrun
    rw [List.range_eq_range']
    exact ⟨w1, hrun⟩

def c4ps : List (NotificationCommitTarget × ExExNotification) :=
  [(.Commit, .ChainCommitted [⟨0, 1⟩]),
   (.Commit, .ChainReverted [⟨0, 1⟩]),
   (.Canonicalize, .ChainReorged [⟨0, 1⟩] [⟨0, 2⟩])]

/-- Witness for C4 at a concrete three-commit sequence. -/
theorem wal_commit_file_id_assignment_witness :
    (∀ p ∈ c4ps, (p.2).wf = true) ∧
    ((∀ w : Wal, w.block_cache = [] → assignedFileId w = 0) ∧
     (∀ (w : Wal) (r : Nat × CachedBlock),
       BlockCache.back w.block_cache = some r → assignedFileId w = r.1 + 1) ∧
     (∀ (w : Wal) (target : NotificationCommitTarget) (n : ExExNotification),
       Wal.commitR true target n w = .ok (Wal.commitOk target n w)) ∧
     (∃ w1, runOpsTrace (commitsOnly c4ps) walEmpty = some (w1, List.range c4ps.length))) :=
  ⟨by decide, wal_commit_file_id_assignment c4ps (by decide)⟩

def c5n : ExExNotification := .ChainCommitted [⟨0, 7⟩]

def c5bad : Wal := ⟨[], [(0, ⟨.Commit, ⟨0, 7⟩⟩)]⟩

/-- Counterexample to claim C5: with a failing durable write, commit from the
empty WAL returns an error, yet the block cache retains the rows for file
id 0 while storage holds nothing — the consistency invariant I2 does not
hold on the failure return path. -/
theorem wal_commit_write_failure_counterexample :
    Wal.commitR false .Commit c5n walEmpty = .err c5bad ∧
    0 ∈ c5bad.block_cache.map (·.1) ∧
    ¬ 0 ∈ Storage.keys c5bad.storage := by decide

/-- Claim C5 as amended: when the durable write fails, commit returns an
error with storage unchanged, but the block cache keeps the freshly
inserted rows of the assigned file id (no rollback is performed), so the
cache can hold a file id never persisted to storage. -/
theorem wal_commit_write_failure_state (target : NotificationCommitTarget)
    (n : ExExNotification) (w : Wal) :
    Wal.commitR false target n w
      = .err ⟨w.storage, w.block_cache ++ cacheRows (assignedFileId w) n⟩ := rfl

def c6e0 : WalEntry := ⟨.Commit, .ChainCommitted [⟨0, 30⟩]⟩

def c6e1 : WalEntry := ⟨.Commit, .ChainCommitted [⟨1, 31⟩]⟩

def c6st : Storage := [(0, c6e0), (1, c6e1)]

def c6w : Wal := ⟨c6st, derivedCache c6st⟩

/-- Counterexample to claim C6: when the storage range-removal fails inside
finalize, the error return leaves the block cache already trimmed (file
id 0 gone) while storage still holds entry 0 — a cache/storage divergence
survives the error return. -/
theorem wal_finalize_remove_failure_counterexample :
    Wal.finalizeR true false ⟨0, 30⟩ c6w
      = .err ⟨c6st, [(1, ⟨.Commit, ⟨1, 31⟩⟩)]⟩ ∧
    0 ∈ Storage.keys c6st ∧
    ¬ 0 ∈ ([(1, (⟨.Commit, ⟨1, 31⟩⟩ : CachedBlock))] : BlockCache).map (·.1) := by decide

/-- Claim C6 as amended: only the storage-read error path of finalize is
divergence-free — a read failure during the scan returns the error with
the WAL state completely unchanged (the scan mutates nothing). An error
from the storage range-removal instead surfaces after the cache was
already trimmed, so the cache can be left missing file ids storage still
holds. -/
theorem wal_finalize_read_failure_unchanged (w w1 : Wal) (tb : BlockNumHash)
    (h : Wal.finalizeR false true tb w = .err w1) : w1 = w := by
  unfold Wal.finalizeR at h
  cases hscan : scanCache w.storage false tb w.block_cache none with
  | readErr =>
    rw [hscan] at h
    exact (WalRes.err.inj h).symm
  | fatal =>
    rw [hscan] at h
    exact absurd h (by simp)
  | done bd =>
    cases bd with
    | none =>
      rw [hscan] at h
      exact absurd h (by simp)
    | some b =>
      rw [hscan] at h
      have h2 : (match popLoop b w.block_cache none none with
                 | (cache1, some a, some bb) =>
                     WalRes.ok ⟨Storage.remove_entries w.storage a bb, cache1⟩
                 | (cache1, _, _) => WalRes.ok ⟨w.storage, cache1⟩) = WalRes.err w1 := h
      rcases hpop : popLoop b w.block_cache none none with ⟨cache1, s, e⟩
      rw [hpop] at h2
      rcases s with _ | a
      · exact absurd h2 (by simp)
      · rcases e with _ | bb
        · exact absurd h2 (by simp)
        · exact absurd h2 (by simp)

/-- Witness for the amended C6 at a concrete state where the scan's read
fails on the matching row. -/
theorem wal_finalize_read_failure_unchanged_witness :
    Wal.finalizeR false true ⟨0, 30⟩ c6w = .err c6w ∧ c6w = c6w :=
  ⟨by decide, wal_finalize_read_failure_unchanged c6w c6w ⟨0, 30⟩ (by decide)⟩

def c7e0 : WalEntry := ⟨.Commit, .ChainCommitted [⟨0, 40⟩]⟩

def c7e1 : WalEntry := ⟨.Commit, .ChainCommitted [⟨1, 41⟩]⟩

def c7e2 : WalEntry := ⟨.Commit, .ChainCommitted [⟨2, 42⟩]⟩

def c7st : Storage := [(0, c7e0), (1, c7e1), (2, c7e2)]

def c7w : Wal := ⟨c7st, derivedCache c7st⟩

def c7w1 : Wal := ⟨[(1, c7e1), (2, c7e2)], derivedCache [(1, c7e1), (2, c7e2)]⟩

def c7w2 : Wal := ⟨[(2, c7e2)], derivedCache [(2, c7e2)]⟩

/-- Claim C7 (code bug): after finalize(b) succeeds and removes block b's
entry, a second finalize(b) falls into the not-found scan path, whose
candidate boundary ends at the last entry — so the second call again
removes entries (here entry 1) instead of being a no-op, contradicting the
spec's P5. -/
theorem wal_finalize_not_idempotent :
    Wal.finalizeR true true ⟨0, 40⟩ c7w = .ok c7w1 ∧
    Wal.finalizeR true true ⟨0, 40⟩ c7w1 = .ok c7w2 ∧
    ¬ c7w2 = c7w1 := by decide

def c8n : ExExNotification := .ChainCommitted [⟨0, 3⟩]

def c8ops : List WalOp := [.commit .Commit c8n, .remove 0, .commit .Commit c8n]

/-- Counterexample to claim C8: the sequence commit, remove 0, commit — every
call returning Ok — assigns the trace of file ids [0, 0]: the second
commit reuses ordinal 0 because the trim emptied the cache. -/
theorem wal_commit_reuse_counterexample :
    (runOpsTrace c8ops walEmpty).map (fun p => p.2) = some [0, 0] ∧
    ¬ ([0, 0] : List Nat).Nodup := by decide

/-- Claim C8 as amended: along any all-succeeding, well-formed operation
sequence from the empty WAL, commit's assigned file id is strictly greater
than every file id still live in the block cache — ids are never reused
while their entries live; reuse is possible only after trimming has
emptied the cache, whereupon assignment restarts at 0. -/
theorem wal_commit_fresh_above_live (ops : List WalOp) (w : Wal) (tr : List Nat)
    (hwf : ∀ op ∈ ops, op.wf = true)
    (hrun : runOpsTrace ops walEmpty = some (w, tr)) :
    ∀ r ∈ w.block_cache, r.1 < assignedFileId w :=
  walWf_fid_lt_assigned w (runOpsTrace_wf ops walEmpty w tr walEmpty_wf hwf hrun)

def c8w : Wal := ⟨[(0, ⟨.Commit, c8n⟩)], [(0, ⟨.Commit, ⟨0, 3⟩⟩)]⟩

/-- Witness for the amended C8 at the concrete reuse sequence. -/
theorem wal_commit_fresh_above_live_witness :
    (∀ op ∈ c8ops, op.wf = true) ∧
    runOpsTrace c8ops walEmpty = some (c8w, [0, 0]) ∧
    (∀ r ∈ c8w.block_cache, r.1 < assignedFileId c8w) :=
  ⟨by decide, by decide,
   wal_commit_fresh_above_live c8ops c8w [0, 0] (by decide) (by decide)⟩

/-- Claim C9: remove(file_id) with a successful storage removal removes the
entry from storage and all its rows from the block cache; any failure of
the storage removal (NotFound or an I/O error) returns the error with the
whole WAL state, in particular the block cache, unchanged. -/
theorem wal_remove_spec (w : Wal) (file_id : Nat) :
    (∀ (b : Bool) (w1 : Wal), Wal.removeR b file_id w = .err w1 → w1 = w) ∧
    (∀ st1, Storage.remove_entry w.storage file_id = some st1 →
      Wal.removeR true file_id w
        = .ok ⟨st1, w.block_cache.filter (fun r => r.1 != file_id)⟩ ∧
      st1 = w.storage.filter (fun kv => kv.1 != file_id) ∧
      ¬ file_id ∈ Storage.keys st1 ∧
      ¬ file_id ∈ (w.block_cache.filter (fun r => r.1 != file_id)).map (·.1)) := by
  constructor
  · intro b w1 h
    cases b with
    | false =>
      unfold Wal.removeR at h
      rw [if_neg (by simp)] at h
      exact (WalRes.err.inj h).symm
    | true =>
      unfold Wal.removeR at h
      rw [if_pos rfl] at h
      cases hre : Storage.remove_entry w.storage file_id with
      | none =>
        rw [hre] at h
        exact (WalRes.err.inj h).symm
      | some st1 =>
        rw [hre] at h
        exact absurd h (by simp)
  · intro st1 hre
    have hst1 : st1 = w.storage.filter (fun kv => kv.1 != file_id) := by
      unfold Storage.remove_entry at hre
      by_cases hrs : (Storage.read_entry w.storage file_id).isSome
      · rw [if_pos hrs] at hre
        exact (Option.some.inj hre).symm
      · rw [if_neg hrs] at hre
        exact absurd hre (by simp)
    refine ⟨?_, hst1, ?_, ?_⟩
    · unfold Wal.removeR
      rw [if_pos rfl, hre]
      rfl
    · rw [hst1]
      intro hmem
      obtain ⟨kv, hkv, hkvf⟩ := List.mem_map.1 hmem
      have := List.of_mem_filter hkv
      rw [hkvf] at this
      simp at this
    · intro hmem
      obtain ⟨r, hr, hrf⟩ := List.mem_map.1 hmem
      have := List.of_mem_filter hr
      rw [hrf] at this
      simp at this

def c9e : WalEntry := ⟨.Commit, .ChainCommitted [⟨0, 9⟩]⟩

def c9w : Wal := ⟨[(0, c9e)], [(0, ⟨.Commit, ⟨0, 9⟩⟩)]⟩

/-- Witness for C9 at a concrete one-entry state, removing file id 0. -/
theorem wal_remove_spec_witness :
    (Wal.removeR false 0 c9w = .err c9w → c9w = c9w) ∧
    Storage.remove_entry c9w.storage 0 = some [] ∧
    (Wal.removeR true 0 c9w
        = .ok ⟨[], c9w.block_cache.filter (fun r => r.1 != 0)⟩ ∧
      ([] : Storage) = c9w.storage.filter (fun kv => kv.1 != 0) ∧
      ¬ 0 ∈ Storage.keys ([] : Storage) ∧
      ¬ 0 ∈ (c9w.block_cache.filter (fun r => r.1 != 0)).map (·.1)) :=
  ⟨fun h => (wal_remove_spec c9w 0).1 false c9w h, by decide,
   (wal_remove_spec c9w 0).2 [] (by decide)⟩

/-- Claim C10: when storage holds no entries (files_range is none),
Wal::entries returns Ok with the empty sequence rather than an error, and
the recovery of Wal::new leaves the block cache empty. -/
theorem wal_entries_empty_storage (s : Storage) (h : Storage.files_range s = none) :
    Wal.entries (Wal.new s) = .ok [] ∧ (Wal.new s).block_cache = [] := by
  have hnil : s = [] := by
    cases s with
    | nil => rfl
    | cons kv rest =>
      exfalso
      unfold Storage.files_range at h
      rw [List.head?_cons] at h
      cases hgl : (kv :: rest).getLast? with
      | none => simp at hgl
      | some x =>
        rw [hgl] at h
        exact absurd h (by simp)
  subst hnil
  exact ⟨rfl, rfl⟩

/-- Witness for C10 at the empty storage. -/
theorem wal_entries_empty_storage_witness :
    Storage.files_range ([] : Storage) = none ∧
    (Wal.entries (Wal.new ([] : Storage)) = .ok [] ∧
     (Wal.new ([] : Storage)).block_cache = []) :=
  ⟨rfl, wal_entries_empty_storage [] rfl⟩
